import Mathlib

/-!
# Verification of the stream-selection / download-merge pipeline

Shallow embedding of `src/youtube_downloader.py` (the console front end; the
GUI variant shares the same logic).  Python exceptions are modelled by
`Option` (`none` = the operation raises), Python dictionaries by
insertion-ordered association lists, and `sorted(..., reverse=True)` by
Mathlib's stable `List.insertionSort` with a reflexive total "greater or
equal on the sort key" relation.
-/

/-- A raw stream descriptor as delivered by the extraction collaborator
(pytubefix).  `abr = none` models Python `None`; an empty string is also
falsy in Python and the embedding treats it like the source does
(via truthiness tests). -/
structure YStream where
  includesVideo : Bool
  includesAudio : Bool
  subtype : String
  resolution : String
  abr : Option String
  filesize : Nat
  isProgressive : Bool
deriving DecidableEq, Repr

/-- The digit characters of a string, in order: models
`''.join(filter(str.isdigit, s))`. -/
def digitsOf (s : String) : String :=
  ⟨s.data.filter Char.isDigit⟩

/-- Decimal value of a digit list (most significant first). -/
def digitsVal : List Char → Nat → Nat
  | [], acc => acc
  | c :: cs, acc => digitsVal cs (acc * 10 + (c.toNat - 48))

/-- `int(''.join(filter(str.isdigit, s)))`: Python `int` raises `ValueError`
on the empty string, modelled by `none`.  On a nonempty digit string it
returns its decimal value. -/
def extractNum (s : String) : Option Nat :=
  match s.data.filter Char.isDigit with
  | [] => none
  | ds => some (digitsVal ds 0)

/-- Python truthiness of the `abr` attribute: `None` and `""` are falsy. -/
def abrTruthy : Option String → Bool
  | none => false
  | some a => !(a == "")

/-- `stream.abr if stream.abr else "128"` (source line 358). -/
def abrStr (s : YStream) : String :=
  match s.abr with
  | none => "128"
  | some a => if a == "" then "128" else a

/-- The integer bitrate used as the audio dedup bucket of a stream
(source line 358): digits extracted from the abr (default `"128"` when the
abr is falsy); `none` models the `ValueError` from `int('')` when a truthy
abr contains no digit. -/
def audioBitrate (s : YStream) : Option Nat :=
  extractNum (abrStr s)

/-- `audio.abr if audio.abr else "160kbps"` (source line 377): the bitrate
label carried by the synthesized MP3/AAC options. -/
def virtLabel (a : YStream) : String :=
  match a.abr with
  | none => "160kbps"
  | some x => if x == "" then "160kbps" else x

/-- Does the character list `needle` occur as a prefix of `hay`? -/
def startsWithL : List Char → List Char → Bool
  | _, [] => true
  | [], _ :: _ => false
  | a :: as, b :: bs => a == b && startsWithL as bs

/-- Does `needle` occur as a contiguous sublist of `hay`?  Models Python
`needle in hay` on strings. -/
def containsSub (hay needle : List Char) : Bool :=
  match hay with
  | [] => needle.isEmpty
  | _ :: t => startsWithL hay needle || containsSub t needle

/-- `'hd' in x.lower()` (source line 349). -/
def containsHd (x : String) : Bool :=
  containsSub (x.data.map Char.toLower) ['h', 'd']

/-! ## Insertion-ordered dictionaries

Python `dict`: updating an existing key keeps its position, a new key is
appended at the end. -/

/-- `k in d`. -/
def dContains {α β : Type} [BEq α] : List (α × β) → α → Bool
  | [], _ => false
  | p :: rest, k => p.1 == k || dContains rest k

/-- `d[k]` as an `Option` (first entry with the key; a dict never holds a
key twice). -/
def dGet {α β : Type} [BEq α] : List (α × β) → α → Option β
  | [], _ => none
  | p :: rest, k => if p.1 == k then some p.2 else dGet rest k

/-- `d[k] = v`: update the existing entry in place, else append the new
key at the end — Python dict insertion-order semantics. -/
def dPut {α β : Type} [BEq α] : List (α × β) → α → β → List (α × β)
  | [], k, v => [(k, v)]
  | p :: rest, k, v => if p.1 == k then (k, v) :: rest else p :: dPut rest k v

/-! ## Phase 1 of `organize_streams` (source lines 318-344): one pass over
`yt.streams` filling the video dict, the audio list and `best_audio`. -/

/-- Running state of the collection loop. -/
structure CollectSt where
  videoStreams : List (String × YStream)
  audioStreams : List YStream
  bestAudio : Option YStream
deriving DecidableEq, Repr

/-- The `best_audio` update (source lines 340-343):
`best_audio is None or (stream.abr and best_audio.abr and
int(digits(stream.abr)) > int(digits(best_audio.abr)))`.
`none` models the `ValueError` when a truthy abr has no digits. -/
def bestAudioUpd (best : Option YStream) (s : YStream) : Option (Option YStream) :=
  match best with
  | none => some (some s)
  | some b =>
    if abrTruthy s.abr && abrTruthy b.abr then
      match extractNum ((s.abr).getD ""), extractNum ((b.abr).getD "") with
      | some ns, some nb => some (if nb < ns then some s else some b)
      | _, _ => none
    else some (some b)

/-- One iteration of the collection loop (source lines 323-344). -/
def collectStep (verbose : Bool) (st : CollectSt) (s : YStream) : Option CollectSt :=
  if s.includesVideo then
    if !verbose && s.subtype == "webm" then some st
    else if s.resolution == "1080p" then
      match dGet st.videoStreams "1080p_hd" with
      | none => some { st with videoStreams := dPut st.videoStreams "1080p_hd" s }
      | some hd =>
        if s.filesize < hd.filesize then
          some { st with videoStreams := dPut st.videoStreams "1080p" s }
        else some st
    else if dContains st.videoStreams s.resolution then some st
    else some { st with videoStreams := dPut st.videoStreams s.resolution s }
  else if s.includesAudio && !s.includesVideo then
    (bestAudioUpd st.bestAudio s).map
      (fun b => { st with bestAudio := b, audioStreams := st.audioStreams ++ [s] })
  else some st

/-- The whole collection pass. -/
def collectPhase (streams : List YStream) (verbose : Bool) : Option CollectSt :=
  streams.foldlM (collectStep verbose) ⟨[], [], none⟩

/-! ## Phase 2 (source lines 346-353): order the video dict by
`sorted(keys, key=lambda x: (int(digits(x)), 'hd' in x.lower()), reverse=True)`
and read the dict back in that order.  Keys of a dict are unique, so this
equals stably sorting the (key, value) items by the key tuple, descending. -/

/-- The sort key of a video dict key (crashes, i.e. `none`, when the key
holds no digit, like Python `int('')`). -/
def resKey (k : String) : Option (Nat × Bool) :=
  (extractNum k).map (fun n => (n, containsHd k))

/-- Python tuple order `(Nat, Bool)` with `False < True`, non-strict. -/
def tupLe (x y : Nat × Bool) : Prop :=
  x.1 < y.1 ∨ (x.1 = y.1 ∧ (x.2 = true → y.2 = true))

instance tupLeDec : ∀ x y : Nat × Bool, Decidable (tupLe x y) := fun x y =>
  inferInstanceAs (Decidable (x.1 < y.1 ∨ (x.1 = y.1 ∧ (x.2 = true → y.2 = true))))

/-- "Descending" relation on keyed video entries: `a` may precede `b`
when the key of `b` is not above the key of `a`.  Reflexive and total, so
`List.insertionSort` with it is stable, matching Python's stable
`sorted(..., reverse=True)`. -/
def vidGe (a b : (Nat × Bool) × YStream) : Prop := tupLe b.1 a.1

instance vidGeDec : ∀ a b : (Nat × Bool) × YStream, Decidable (vidGe a b) := fun a b =>
  inferInstanceAs (Decidable (tupLe b.1 a.1))

instance tupLeTotal : IsTotal (Nat × Bool) tupLe := by
  constructor
  intro x y
  unfold tupLe
  rcases Nat.lt_trichotomy x.1 y.1 with h | h | h
  · exact Or.inl (Or.inl h)
  · cases hx : x.2 <;> cases hy : y.2
    · exact Or.inl (Or.inr ⟨h, by simp [hx, hy]⟩)
    · exact Or.inl (Or.inr ⟨h, by simp [hy]⟩)
    · exact Or.inr (Or.inr ⟨h.symm, by simp [hx]⟩)
    · exact Or.inl (Or.inr ⟨h, by simp [hy]⟩)
  · exact Or.inr (Or.inl h)

instance tupLeTrans : IsTrans (Nat × Bool) tupLe := by
  constructor
  intro x y z hxy hyz
  unfold tupLe at hxy hyz ⊢
  rcases hxy with h1 | ⟨h1, h1b⟩ <;> rcases hyz with h2 | ⟨h2, h2b⟩
  · exact Or.inl (Nat.lt_trans h1 h2)
  · exact Or.inl (h2 ▸ h1)
  · exact Or.inl (h1 ▸ h2)
  · exact Or.inr ⟨h1.trans h2, fun hb => h2b (h1b hb)⟩

instance vidGeTotal : IsTotal ((Nat × Bool) × YStream) vidGe := by
  constructor
  intro a b
  rcases tupLeTotal.total b.1 a.1 with h | h
  · exact Or.inl h
  · exact Or.inr h

instance vidGeTrans : IsTrans ((Nat × Bool) × YStream) vidGe := by
  constructor
  intro a b c hab hbc
  exact tupLeTrans.trans c.1 b.1 a.1 hbc hab

/-- Attach the sort key to each video dict item (Python computes the key of
every element of `video_streams.keys()`, raising if any fails). -/
def keyedVideo : List (String × YStream) → Option (List ((Nat × Bool) × YStream))
  | [] => some []
  | p :: rest =>
    match resKey p.1, keyedVideo rest with
    | some kk, some r => some ((kk, p.2) :: r)
    | _, _ => none

/-- Phase 2: the quality-ordered video stream list. -/
def orderedVideo (d : List (String × YStream)) : Option (List YStream) := do
  let keyed ← keyedVideo d
  some ((List.insertionSort vidGe keyed).map (fun p => p.2))

/-! ## Phase 3 (source lines 355-370): audio dedup by bitrate bucket and
descending bitrate order.  The source keys the bucket dict by the string
`f"{bitrate}kbps"` and recovers the integer with digit extraction for
sorting; `n ↦ s!"{n}kbps"` is injective and round-trips, so the embedding
keys the bucket dict by the integer bitrate directly. -/

/-- One iteration of the bucket loop (source lines 357-361): place the
stream in its bitrate bucket, keeping the smaller file (strictly smaller
replaces, so the first minimum is kept). -/
def bucketStep (d : List (Nat × YStream)) (s : YStream) : Option (List (Nat × YStream)) :=
  match audioBitrate s with
  | none => none
  | some b =>
    match dGet d b with
    | none => some (dPut d b s)
    | some cur => some (if s.filesize < cur.filesize then dPut d b s else d)

/-- Descending order on buckets (distinct keys, so ties cannot occur). -/
def bucketGe (a b : Nat × YStream) : Prop := b.1 ≤ a.1

instance bucketGeDec : ∀ a b : Nat × YStream, Decidable (bucketGe a b) := fun a b =>
  inferInstanceAs (Decidable (b.1 ≤ a.1))

instance bucketGeTotal : IsTotal (Nat × YStream) bucketGe := by
  constructor
  intro a b
  exact (Nat.le_total b.1 a.1).imp id id

instance bucketGeTrans : IsTrans (Nat × YStream) bucketGe := by
  constructor
  intro a b c hab hbc
  exact Nat.le_trans hbc hab

/-- Phase 3: the deduplicated audio streams, highest bitrate bucket first
(source lines 355-370). -/
def rankedAudio (audio : List YStream) : Option (List YStream) := do
  let buckets ← audio.foldlM bucketStep []
  some ((List.insertionSort bucketGe buckets).map (fun p => p.2))

/-! ## Phase 4 (source lines 372-403): synthesized MP3/AAC options. -/

/-- A synthesized conversion option (the loosely-typed dict of source lines
378-393; the constant `'type': 'audio'` entry is omitted). -/
structure VirtualAudio where
  subtype : String
  abr : String
  filesize : Nat
  audioCodec : String
  original : YStream
deriving DecidableEq, Repr

/-- A selectable audio menu entry: a raw descriptor or a virtual option. -/
inductive AudioOpt where
  | raw : YStream → AudioOpt
  | virt : VirtualAudio → AudioOpt
deriving DecidableEq, Repr

/-- The MP3 and AAC options synthesized from one retained audio stream
(source lines 376-394). -/
def mkVirtuals (a : YStream) : List AudioOpt :=
  [AudioOpt.virt ⟨"mp3", virtLabel a, a.filesize, "mp3", a⟩,
   AudioOpt.virt ⟨"aac", virtLabel a, a.filesize, "aac", a⟩]

/-- The final audio option list (source lines 373-401): with a best audio
stream present, verbose mode appends every synthesized pair after the raw
entries, normal mode keeps only the first two synthesized options. -/
def audioOptions (verbose : Bool) (hasBest : Bool) (ranked : List YStream) : List AudioOpt :=
  if hasBest then
    let virtuals := ranked.flatMap mkVirtuals
    if verbose then ranked.map AudioOpt.raw ++ virtuals
    else virtuals.take 2
  else ranked.map AudioOpt.raw

/-- `organize_streams` (source lines 308-403): `none` models an uncaught
exception escaping the function. -/
def organize_streams (streams : List YStream) (verbose : Bool) :
    Option (List YStream × List AudioOpt) := do
  let st ← collectPhase streams verbose
  let vids ← orderedVideo st.videoStreams
  let ranked ← rankedAudio st.audioStreams
  some (vids, audioOptions verbose st.bestAudio.isSome ranked)

/-! ## Menu presentation (source `print_stream_options`, lines 428-438). -/

/-- The quality label of the `i`-th (1-based) video menu row: only the row
at index 1 gets the `"+"` mark, and only when its resolution is 1080p
(source lines 430-432). -/
def videoLabel (i : Nat) (s : YStream) : String :=
  if s.resolution == "1080p" && i == 1 then s.resolution ++ "+" else s.resolution

/-- The video menu as (quality label, file size) rows. -/
def videoMenu (vs : List YStream) : List (String × Nat) :=
  vs.enum.map (fun p => (videoLabel (p.1 + 1) p.2, p.2.filesize))

/-- The selection loop's acceptance test (source line 486):
`1 <= choice <= len(all_streams)`; any other integer re-prompts. -/
def selectionAccepted (menuLen : Nat) (choice : Int) : Bool :=
  decide (1 ≤ choice) && decide (choice ≤ (menuLen : Int))

/-! ## `clean_filename` (source lines 253-261). -/

/-- The characters removed by `re.sub(r'[<>:"/\\|?*]', '', title)`. -/
def illegalChars : List Char := ['<', '>', ':', '\"', '/', '\\', '|', '?', '*']

/-- Removing every character of the illegal class is filtering them out. -/
def clean_filename (title : String) : String :=
  ⟨title.data.filter (fun c => !(decide (c ∈ illegalChars)))⟩

/-! ## Progress reporting (source lines 133-151 and 214-234).

Each `frame=` / `out_time_ms=` line carries a raw *cumulative* counter; the
code sets the bar to `min(int((raw/total)*100), 100)` when the probed total
is positive and leaves the bar unchanged otherwise.  The source computes
the ratio in floating point; the embedding uses exact `Nat` arithmetic
(`(raw*100)/total`, floor), which has the same monotonicity and clamping
behaviour. -/

/-- The new bar value after one `frame=` line (source lines 140-148):
`prev` is the current bar value, kept when `total = 0`. -/
def frameUpdate (total prev raw : Nat) : Nat :=
  if 0 < total then min ((raw * 100) / total) 100 else prev

/-- The sequence of bar values displayed for a list of raw counter events,
starting from a bar at `p0` (the bar starts at 0; source line 133). -/
def percentTrace (total p0 : Nat) : List Nat → List Nat
  | [] => []
  | e :: es => frameUpdate total p0 e :: percentTrace total (frameUpdate total p0 e) es

/-- The audio-conversion loop (source lines 222-228) has the same shape on
`out_time_ms=` lines: the raw value and the probed duration are compared in
microseconds. -/
def timeUpdate (durationUs prev rawUs : Nat) : Nat :=
  if 0 < durationUs then min ((rawUs * 100) / durationUs) 100 else prev

/-! ## Session file-state models (source `download_video`, lines 524-614).

A filesystem is the list of paths present.  The path names are fixed
distinct tokens standing for the concrete `*_temp.*` and output names built
from the video title; only presence/absence matters to the claims. -/

/-- Temp path of the separately downloaded video track (source line 539). -/
def vTemp : String := "video_temp"

/-- Temp path of the separately downloaded audio track (source line 540). -/
def aTemp : String := "audio_temp"

/-- The final destination path of the remux branch (source line 544). -/
def outPath : String := "output"

/-- Temp path of the audio download in the transcode branch (line 585). -/
def xTemp : String := "temp_input"

/-- The final destination path of the transcode branch (source line 584). -/
def xOut : String := "final_output"

/-- Terminal state of one session branch: the files left on disk and the
process exit code (0 = success path reached). -/
structure SessionEnd where
  files : List String
  exitCode : Nat
deriving DecidableEq, Repr

/-- The adaptive (remux) branch from the start of its `try` block (source
lines 546-580), with both downloads succeeding: the two temp tracks exist,
ffmpeg is handed `output_path` — the final destination — directly
(`toolWrote` says whether the tool created a file there, e.g. a partial
file when it fails mid-run), then the `finally` block removes both temp
inputs unconditionally; nonzero tool exit reaches `sys.exit(1)`. -/
def remuxSession (toolExit : Nat) (toolWrote : Bool) : SessionEnd :=
  let fs0 := [vTemp, aTemp]
  let fs1 := if toolWrote then fs0 ++ [outPath] else fs0
  let fs2 := fs1.filter (fun p => !(p == vTemp || p == aTemp))
  ⟨fs2, if toolExit = 0 then 0 else 1⟩

/-- The virtual-audio (transcode) branch (source lines 593-604): the source
audio is downloaded to `temp_path`, ffmpeg is handed `full_path` — the
final destination — directly, and the temp input is removed only when the
tool exits 0; on nonzero exit the code calls `sys.exit(1)` leaving the temp
file behind. -/
def transcodeSession (toolExit : Nat) (toolWrote : Bool) : SessionEnd :=
  let fs0 := [xTemp]
  let fs1 := if toolWrote then fs0 ++ [xOut] else fs0
  if toolExit = 0 then ⟨fs1.filter (fun p => !(p == xTemp)), 0⟩
  else ⟨fs1, 1⟩

/-- Is a descriptor iterated by the video arm of the collection loop (not
skipped by the webm filter of source line 326)? -/
def elig (verbose : Bool) (s : YStream) : Bool :=
  s.includesVideo && !(!verbose && s.subtype == "webm")

/-! ## Concrete descriptors for the spec's scenarios. -/

/-- Scenario A, first 1080p descriptor (50 MB, non-progressive mp4). -/
def scA1 : YStream := ⟨true, false, "mp4", "1080p", none, 50000000, false⟩

/-- Scenario A, second 1080p descriptor (40 MB). -/
def scA2 : YStream := ⟨true, false, "mp4", "1080p", none, 40000000, false⟩

/-- Scenario A, 720p descriptor (30 MB). -/
def scA3 : YStream := ⟨true, false, "mp4", "720p", none, 30000000, true⟩

/-- A 1440p descriptor, above 1080p in resolution (45 MB). -/
def scV1440 : YStream := ⟨true, false, "mp4", "1440p", none, 45000000, false⟩

/-- Scenario B audio descriptors: 128kbps/5MB, 160kbps/4MB, 128kbps/6MB. -/
def scB1 : YStream := ⟨false, true, "m4a", "", some "128kbps", 5000000, false⟩

/-- Scenario B, second audio descriptor. -/
def scB2 : YStream := ⟨false, true, "m4a", "", some "160kbps", 4000000, false⟩

/-- Scenario B, third audio descriptor. -/
def scB3 : YStream := ⟨false, true, "m4a", "", some "128kbps", 6000000, false⟩

/-- An audio descriptor with a truthy but digit-free bitrate string. -/
def badAbrAudio : YStream := ⟨false, true, "m4a", "", some "kbps", 500, false⟩

/-- An audio descriptor with an absent (`None`) bitrate. -/
def noAbrAudio : YStream := ⟨false, true, "m4a", "", none, 7, false⟩

/-- Shape invariant of the video dict: every entry is stored under its own
resolution, except 1080p descriptors which sit under `"1080p_hd"` or
`"1080p"`. -/
def keyOK (p : String × YStream) : Prop :=
  p.1 = p.2.resolution ∨
    (p.2.resolution = "1080p" ∧ (p.1 = "1080p_hd" ∨ p.1 = "1080p"))

/-! # Theorems -/

/-- C10: `clean_filename` is idempotent and its output never contains any
of the characters removed by the regular expression class. -/
theorem clean_filename_idempotent_and_clean :
    ∀ t : String,
      clean_filename (clean_filename t) = clean_filename t ∧
      ∀ c ∈ (clean_filename t).data, c ∉ illegalChars := by
  intro t
  constructor
  · simp [clean_filename, List.filter_filter]
  · intro c hc
    simp only [clean_filename] at hc
    have h := List.of_mem_filter hc
    simpa using h

/-- C10 witness: a concrete title instantiates the membership hypothesis. -/
theorem clean_filename_idempotent_and_clean_witness :
    clean_filename (clean_filename "a<b>c|d") = clean_filename "a<b>c|d" ∧
    ('a' ∈ (clean_filename "a<b>c|d").data ∧ 'a' ∉ illegalChars) :=
  ⟨(clean_filename_idempotent_and_clean "a<b>c|d").1,
   by decide,
   (clean_filename_idempotent_and_clean "a<b>c|d").2 'a' (by decide)⟩

/-- C2 counterexample: in TranscodeAudio mode, a nonzero tool exit leaves
the temporary input file behind — the cleanup is not unconditional. -/
theorem transcode_temp_left_on_failure :
    xTemp ∈ (transcodeSession 1 false).files ∧ (transcodeSession 1 false).exitCode = 1 := by
  decide

/-- C2 (amended): in Remux mode the temporary inputs are removed
unconditionally (the `finally` block), for every tool exit status and
whether or not the tool created the output; in TranscodeAudio mode the
temporary input survives exactly the failing exits (it is removed only on
exit 0). -/
theorem temp_cleanup_by_mode :
    (∀ e w, vTemp ∉ (remuxSession e w).files ∧ aTemp ∉ (remuxSession e w).files) ∧
    (∀ e w, xTemp ∈ (transcodeSession e w).files ↔ e ≠ 0) := by
  constructor
  · intro e w
    cases w <;> simp [remuxSession, vTemp, aTemp, outPath]
  · intro e w
    by_cases h : e = 0
    · subst h
      cases w <;> simp [transcodeSession, xTemp, xOut]
    · cases w <;> simp [transcodeSession, h, xTemp, xOut]

/-- C3 counterexample: in the remux branch the external tool writes at the
final destination path directly; when it fails (exit 1) after creating the
file, the partial output is left at the destination. -/
theorem partial_output_left_on_failure :
    outPath ∈ (remuxSession 1 true).files ∧ (remuxSession 1 true).exitCode = 1 := by
  decide

/-- C3 (amended): there is no temp-write-then-rename gate: in both
processing branches the presence of a file at the final destination is
exactly "the tool wrote there", independent of the session outcome. -/
theorem destination_presence_ungated :
    ∀ e w, (outPath ∈ (remuxSession e w).files ↔ w = true) ∧
      (xOut ∈ (transcodeSession e w).files ↔ w = true) := by
  intro e w
  refine ⟨?_, ?_⟩
  · cases w <;> simp [remuxSession, vTemp, aTemp, outPath]
  · by_cases h : e = 0
    · subst h
      cases w <;> simp [transcodeSession, xTemp, xOut]
    · cases w <;> simp [transcodeSession, h, xTemp, xOut]

/-- C8: an empty raw descriptor list yields an empty menu, and the
selection loop then accepts no integer at all (`1 <= choice <= 0` is
unsatisfiable): the session can never advance past the prompt. -/
theorem empty_catalog_behaviour :
    (∀ v, organize_streams [] v = some ([], [])) ∧
    (∀ c : Int, selectionAccepted 0 c = false) := by
  constructor
  · intro v
    cases v <;> rfl
  · intro c
    unfold selectionAccepted
    by_cases h : 1 ≤ c
    · have h2 : ¬ (c ≤ ((0 : Nat) : Int)) := by
        simp only [Nat.cast_zero]
        omega
      simp [h2]
      omega
    · simp [h]

/-- C9: a retained audio descriptor with an absent bitrate is labelled with
the literal `"160kbps"` on its synthesized MP3/AAC options but bucketed
under bitrate 128 during dedup — the two defaults differ; concretely, one
abr-less audio descriptor produces two virtual options labelled
`"160kbps"`. -/
theorem default_bitrate_mismatch :
    (∀ s : YStream, s.abr = none →
      virtLabel s = "160kbps" ∧ audioBitrate s = some 128) ∧
    organize_streams [noAbrAudio] false =
      some ([], [AudioOpt.virt ⟨"mp3", "160kbps", 7, "mp3", noAbrAudio⟩,
                 AudioOpt.virt ⟨"aac", "160kbps", 7, "aac", noAbrAudio⟩]) := by
  constructor
  · intro s h
    refine ⟨by simp [virtLabel, h], ?_⟩
    simp only [audioBitrate, abrStr, h]
    decide
  · decide

/-- C9 witness: the abr-less descriptor instantiates the hypothesis. -/
theorem default_bitrate_mismatch_witness :
    noAbrAudio.abr = none ∧
      (virtLabel noAbrAudio = "160kbps" ∧ audioBitrate noAbrAudio = some 128) :=
  ⟨rfl, default_bitrate_mismatch.1 noAbrAudio rfl⟩

/-- C5 counterexample: the loops mirror the raw *cumulative* counter into
the bar, so a non-negative but decreasing raw sequence produces a
decreasing displayed percentage: events 50 then 30 against a total of 100
display 50% then 30%. -/
theorem progress_not_monotone_cex :
    percentTrace 100 0 [50, 30] = [50, 30] ∧
      ¬ List.Sorted (fun a b => a ≤ b) (percentTrace 100 0 [50, 30]) := by
  decide

/-! ## Dictionary lemmas -/

section DictLemmas

variable {α β : Type} [BEq α] [LawfulBEq α]

theorem dGet_dPut_self (d : List (α × β)) (k : α) (v : β) :
    dGet (dPut d k v) k = some v := by
  induction d with
  | nil => simp [dPut, dGet]
  | cons p rest ih =>
    by_cases h : p.1 = k
    · simp [dPut, dGet, h]
    · simp [dPut, dGet, h, ih]

theorem dGet_dPut_ne (d : List (α × β)) (k k' : α) (v : β) (h : k' ≠ k) :
    dGet (dPut d k v) k' = dGet d k' := by
  have hk : (k == k') = false := by
    simp only [beq_eq_false_iff_ne, ne_eq]
    exact fun hh => h hh.symm
  induction d with
  | nil => simp [dPut, dGet, hk]
  | cons p rest ih =>
    by_cases h1 : p.1 = k
    · have hp : (p.1 == k') = false := by
        rw [h1]
        exact hk
      simp [dPut, dGet, h1, hk, hp]
    · have hb : (p.1 == k) = false := by simp [h1]
      simp only [dPut, hb, Bool.false_eq_true, if_false, dGet, ih]

theorem mem_dPut (d : List (α × β)) (k : α) (v : β) (p : α × β)
    (h : p ∈ dPut d k v) : p = (k, v) ∨ p ∈ d := by
  induction d with
  | nil =>
    simp only [dPut, List.mem_singleton] at h
    exact Or.inl h
  | cons q rest ih =>
    by_cases h1 : q.1 = k
    · rw [dPut, if_pos (show (q.1 == k) = true by simp [h1])] at h
      rcases List.mem_cons.1 h with h2 | h2
      · exact Or.inl h2
      · exact Or.inr (List.mem_cons_of_mem _ h2)
    · rw [dPut, if_neg (show ¬ (q.1 == k) = true by simp [h1])] at h
      rcases List.mem_cons.1 h with h2 | h2
      · exact Or.inr (h2 ▸ List.mem_cons_self q rest)
      · rcases ih h2 with h3 | h3
        · exact Or.inl h3
        · exact Or.inr (List.mem_cons_of_mem _ h3)

theorem keys_dPut (d : List (α × β)) (k : α) (v : β) :
    (dPut d k v).map Prod.fst =
      if dContains d k then d.map Prod.fst else d.map Prod.fst ++ [k] := by
  induction d with
  | nil => simp [dPut, dContains]
  | cons p rest ih =>
    by_cases h : p.1 = k
    · have hb : (p.1 == k) = true := by simp [h]
      simp only [dPut, hb, if_true, dContains, Bool.true_or, List.map_cons]
      rw [h]
    · have hb : (p.1 == k) = false := by simp [h]
      simp only [dPut, hb, Bool.false_eq_true, if_false, dContains, Bool.false_or,
        List.map_cons, ih]
      by_cases hc : dContains rest k = true
      · simp [hc]
      · simp [hc]

theorem dContains_iff (d : List (α × β)) (k : α) :
    dContains d k = true ↔ k ∈ d.map Prod.fst := by
  induction d with
  | nil => simp [dContains]
  | cons p rest ih =>
    simp only [dContains, Bool.or_eq_true, beq_iff_eq, List.map_cons, List.mem_cons, ih]
    exact or_congr eq_comm Iff.rfl

theorem keys_dPut_nodup (d : List (α × β)) (k : α) (v : β)
    (h : (d.map Prod.fst).Nodup) : ((dPut d k v).map Prod.fst).Nodup := by
  rw [keys_dPut]
  by_cases hc : dContains d k = true
  · rw [if_pos hc]
    exact h
  · rw [if_neg hc]
    have hk : k ∉ d.map Prod.fst := fun hm => hc ((dContains_iff d k).2 hm)
    refine List.Nodup.append h (List.nodup_singleton k) ?_
    intro a ha hb
    rw [List.mem_singleton] at hb
    exact hk (hb ▸ ha)

theorem mem_of_dGet (d : List (α × β)) (k : α) (v : β)
    (h : dGet d k = some v) : (k, v) ∈ d := by
  induction d with
  | nil => simp [dGet] at h
  | cons p rest ih =>
    obtain ⟨a, b⟩ := p
    by_cases h1 : a = k
    · have hb : ((a, b).1 == k) = true := by simp [h1]
      simp only [dGet, hb, if_true, Option.some.injEq] at h
      subst h1
      subst h
      exact List.mem_cons_self _ _
    · have hb : ((a, b).1 == k) = false := by simp [h1]
      simp only [dGet, hb, Bool.false_eq_true, if_false] at h
      exact List.mem_cons_of_mem _ (ih h)

theorem dGet_of_mem (d : List (α × β)) (k : α) (v : β)
    (hn : (d.map Prod.fst).Nodup) (h : (k, v) ∈ d) : dGet d k = some v := by
  induction d with
  | nil => simp at h
  | cons p rest ih =>
    simp only [List.map_cons, List.nodup_cons, List.mem_map] at hn
    rcases List.mem_cons.1 h with h1 | h1
    · subst h1
      simp [dGet]
    · have hne : p.1 ≠ k := by
        intro he
        exact hn.1 ⟨(k, v), h1, he.symm ▸ rfl⟩
      simp [dGet, hne, ih hn.2 h1]

omit [LawfulBEq α] in
theorem dGet_none_of_not_contains (d : List (α × β)) (k : α)
    (h : dContains d k = false) : dGet d k = none := by
  induction d with
  | nil => rfl
  | cons p rest ih =>
    simp only [dContains, Bool.or_eq_false_iff] at h
    simp [dGet, h.1, ih h.2]

end DictLemmas

/-! ## Progress lemmas and the amended C5 -/

theorem percentTrace_pos (total : Nat) (h : 0 < total) (p0 : Nat) (es : List Nat) :
    percentTrace total p0 es = es.map (fun e => min ((e * 100) / total) 100) := by
  induction es generalizing p0 with
  | nil => rfl
  | cons e es ih => simp [percentTrace, frameUpdate, h, ih]

theorem percentTrace_zero (p0 : Nat) (es : List Nat) :
    percentTrace 0 p0 es = es.map (fun _ => p0) := by
  induction es generalizing p0 with
  | nil => rfl
  | cons e es ih => simp [percentTrace, frameUpdate, ih]

/-- C5 (amended): the displayed percentage is clamped to `[0, 100]`
(a `Nat`, hence never below 0; never above 100 starting from a bar within
bounds), reaches exactly 100 whenever the raw counter meets or overshoots
the probed total, and is monotonically non-decreasing provided the raw
cumulative counters themselves are non-decreasing — both for the
frame-count loop of the remux path and the elapsed-time loop of the audio
path.  (As the counterexample shows, monotonicity does not hold for
arbitrary non-negative raw sequences: the code mirrors the raw absolute
counter instead of accumulating non-negative deltas.) -/
theorem progress_clamped_and_monotone :
    (∀ total prev raw, prev ≤ 100 → frameUpdate total prev raw ≤ 100) ∧
    (∀ total prev raw, 0 < total → total ≤ raw → frameUpdate total prev raw = 100) ∧
    (∀ total es, List.Chain' (fun a b => a ≤ b) es →
      List.Chain' (fun a b => a ≤ b) (percentTrace total 0 es)) ∧
    (∀ durationUs prev rawUs, prev ≤ 100 → timeUpdate durationUs prev rawUs ≤ 100) ∧
    (∀ durationUs prev rawUs, 0 < durationUs → durationUs ≤ rawUs →
      timeUpdate durationUs prev rawUs = 100) := by
  have hclamp : ∀ total prev raw : Nat, prev ≤ 100 →
      (if 0 < total then min ((raw * 100) / total) 100 else prev) ≤ 100 := by
    intro total prev raw hp
    split
    · exact min_le_right _ _
    · exact hp
  have hfull : ∀ total prev raw : Nat, 0 < total → total ≤ raw →
      (if 0 < total then min ((raw * 100) / total) 100 else prev) = 100 := by
    intro total prev raw ht hr
    rw [if_pos ht]
    have h1 : 100 ≤ (raw * 100) / total := by
      rw [Nat.le_div_iff_mul_le ht]
      calc 100 * total = total * 100 := Nat.mul_comm _ _
        _ ≤ raw * 100 := Nat.mul_le_mul_right _ hr
    exact Nat.min_eq_right h1
  refine ⟨fun t p r => hclamp t p r, fun t p r => hfull t p r, ?_, fun d p r => hclamp d p r,
    fun d p r => hfull d p r⟩
  intro total es hes
  rcases Nat.eq_zero_or_pos total with h0 | hpos
  · subst h0
    rw [percentTrace_zero]
    rw [List.chain'_map]
    exact hes.imp (fun _ _ _ => le_refl 0)
  · rw [percentTrace_pos total hpos]
    rw [List.chain'_map]
    refine hes.imp ?_
    intro a b hab
    exact min_le_min (Nat.div_le_div_right (Nat.mul_le_mul_right _ hab)) (le_refl 100)

/-- C5 witness at concrete inputs: total 100, bar 95, raw counter 120
(overshoot) and the non-decreasing raw sequence 10, 50. -/
theorem progress_clamped_and_monotone_witness :
    ((95 ≤ 100) ∧ frameUpdate 100 95 120 ≤ 100) ∧
    ((0 < 100) ∧ (100 ≤ 120) ∧ frameUpdate 100 95 120 = 100) ∧
    (List.Chain' (fun a b => a ≤ b) [10, 50] ∧
      List.Chain' (fun a b => a ≤ b) (percentTrace 100 0 [10, 50])) ∧
    ((7 ≤ 100) ∧ timeUpdate 200 7 300 ≤ 100) ∧
    ((0 < 200) ∧ (200 ≤ 300) ∧ timeUpdate 200 7 300 = 100) :=
  ⟨⟨by decide, progress_clamped_and_monotone.1 100 95 120 (by decide)⟩,
   ⟨by decide, by decide, progress_clamped_and_monotone.2.1 100 95 120 (by decide) (by decide)⟩,
   ⟨by simp [List.chain'_cons], progress_clamped_and_monotone.2.2.1 100 [10, 50]
      (by simp [List.chain'_cons])⟩,
   ⟨by decide, progress_clamped_and_monotone.2.2.2.1 200 7 300 (by decide)⟩,
   ⟨by decide, by decide, progress_clamped_and_monotone.2.2.2.2 200 7 300 (by decide) (by decide)⟩⟩

/-! ## Collection-phase step lemmas -/

theorem collectStep_video_char (verbose : Bool) (st : CollectSt) (s : YStream)
    (st' : CollectSt) (h : collectStep verbose st s = some st') :
    st'.videoStreams = st.videoStreams ∨
      (s.resolution = "1080p" ∧
        (st'.videoStreams = dPut st.videoStreams "1080p_hd" s ∨
         st'.videoStreams = dPut st.videoStreams "1080p" s)) ∨
      (s.resolution ≠ "1080p" ∧ st'.videoStreams = dPut st.videoStreams s.resolution s) := by
  unfold collectStep at h
  split at h
  · split at h
    · cases h
      exact Or.inl rfl
    · split at h
      · rename_i h1080
        split at h
        · cases h
          exact Or.inr (Or.inl ⟨by simpa using h1080, Or.inl rfl⟩)
        · split at h
          · cases h
            exact Or.inr (Or.inl ⟨by simpa using h1080, Or.inr rfl⟩)
          · cases h
            exact Or.inl rfl
      · rename_i h1080
        split at h
        · cases h
          exact Or.inl rfl
        · cases h
          exact Or.inr (Or.inr ⟨by simpa using h1080, rfl⟩)
  · split at h
    · rcases Option.map_eq_some'.1 h with ⟨b, hb, rfl⟩
      exact Or.inl rfl
    · cases h
      exact Or.inl rfl

theorem bestAudioUpd_isSome (best : Option YStream) (s : YStream) (b : Option YStream)
    (h : bestAudioUpd best s = some b) : b.isSome = true := by
  cases best with
  | none =>
    simp only [bestAudioUpd] at h
    cases h
    rfl
  | some b0 =>
    simp only [bestAudioUpd] at h
    by_cases hc : (abrTruthy s.abr && abrTruthy b0.abr) = true
    · rw [if_pos hc] at h
      cases h1 : extractNum (s.abr.getD "") with
      | none =>
        cases h2 : extractNum (b0.abr.getD "") with
        | none =>
          rw [h1, h2] at h
          cases h
        | some nb =>
          rw [h1, h2] at h
          cases h
      | some ns =>
        cases h2 : extractNum (b0.abr.getD "") with
        | none =>
          rw [h1, h2] at h
          cases h
        | some nb =>
          rw [h1, h2] at h
          cases h
          split <;> rfl
    · rw [if_neg hc] at h
      cases h
      rfl

theorem collectStep_audio_char (verbose : Bool) (st : CollectSt) (s : YStream)
    (st' : CollectSt) (h : collectStep verbose st s = some st') :
    (st'.audioStreams = st.audioStreams ∧ st'.bestAudio = st.bestAudio ∧
      (s.includesAudio && !s.includesVideo) = false) ∨
      (s.includesVideo = false ∧ s.includesAudio = true ∧
        st'.audioStreams = st.audioStreams ++ [s] ∧ st'.bestAudio.isSome = true) := by
  unfold collectStep at h
  split at h
  · rename_i hv
    have hcond : (s.includesAudio && !s.includesVideo) = false := by simp [hv]
    split at h
    · cases h
      exact Or.inl ⟨rfl, rfl, hcond⟩
    · split at h
      · split at h
        · cases h
          exact Or.inl ⟨rfl, rfl, hcond⟩
        · split at h
          · cases h
            exact Or.inl ⟨rfl, rfl, hcond⟩
          · cases h
            exact Or.inl ⟨rfl, rfl, hcond⟩
      · split at h
        · cases h
          exact Or.inl ⟨rfl, rfl, hcond⟩
        · cases h
          exact Or.inl ⟨rfl, rfl, hcond⟩
  · rename_i hv
    split at h
    · rename_i haa
      rcases Option.map_eq_some'.1 h with ⟨b, hb, heq⟩
      refine Or.inr ⟨by simpa using hv, ?_, ?_, ?_⟩
      · rw [Bool.and_eq_true] at haa
        exact haa.1
      · rw [← heq]
      · rw [← heq]
        exact bestAudioUpd_isSome st.bestAudio s b hb
    · rename_i haa
      have hcond : (s.includesAudio && !s.includesVideo) = false := by
        revert haa
        cases (s.includesAudio && !s.includesVideo) <;> simp
      cases h
      exact Or.inl ⟨rfl, rfl, hcond⟩

theorem collectStep_audio_list (v : Bool) (st : CollectSt) (s : YStream)
    (st' : CollectSt) (h : collectStep v st s = some st') :
    st'.audioStreams = st.audioStreams ++
      (if s.includesAudio && !s.includesVideo then [s] else []) := by
  rcases collectStep_audio_char v st s st' h with ⟨h1, _, hcond⟩ | ⟨hv, ha, h1, _⟩
  · rw [h1, hcond]
    simp
  · rw [h1]
    have hcond : (s.includesAudio && !s.includesVideo) = true := by simp [hv, ha]
    rw [hcond]
    simp

theorem collect_audio_fold (v : Bool) :
    ∀ (L : List YStream) (st0 st : CollectSt),
      List.foldlM (collectStep v) st0 L = some st →
      st.audioStreams = st0.audioStreams ++
        L.filter (fun s => s.includesAudio && !s.includesVideo) := by
  intro L
  induction L with
  | nil =>
    intro st0 st h
    simp only [List.foldlM_nil, Option.pure_def, Option.some.injEq] at h
    subst h
    simp
  | cons s L ih =>
    intro st0 st h
    rw [List.foldlM_cons] at h
    cases hf : collectStep v st0 s with
    | none =>
      rw [hf] at h
      exact Option.noConfusion h
    | some st1 =>
      rw [hf] at h
      rw [ih st1 st h, collectStep_audio_list v st0 s st1 hf, List.filter_cons]
      by_cases hc : (s.includesAudio && !s.includesVideo) = true
      · rw [if_pos hc, if_pos hc]
        simp
      · rw [if_neg hc, if_neg hc]
        simp

theorem collect_best_fold (v : Bool) :
    ∀ (L : List YStream) (st0 st : CollectSt),
      List.foldlM (collectStep v) st0 L = some st →
      ((st0.bestAudio.isSome = true → st.bestAudio.isSome = true) ∧
       ((∃ s ∈ L, s.includesVideo = false ∧ s.includesAudio = true) →
         st.bestAudio.isSome = true)) := by
  intro L
  induction L with
  | nil =>
    intro st0 st h
    simp only [List.foldlM_nil, Option.pure_def, Option.some.injEq] at h
    subst h
    exact ⟨fun hp => hp, fun hex => by simp at hex⟩
  | cons s L ih =>
    intro st0 st h
    rw [List.foldlM_cons] at h
    cases hf : collectStep v st0 s with
    | none =>
      rw [hf] at h
      exact Option.noConfusion h
    | some st1 =>
      rw [hf] at h
      have hih := ih st1 st h
      have hstep1 : st0.bestAudio.isSome = true → st1.bestAudio.isSome = true := by
        rcases collectStep_audio_char v st0 s st1 hf with ⟨_, hbe, _⟩ | ⟨_, _, _, hbs⟩
        · intro hp
          rw [hbe]
          exact hp
        · intro _
          exact hbs
      constructor
      · intro hp
        exact hih.1 (hstep1 hp)
      · rintro ⟨s0, hs0, hv0, ha0⟩
        rcases List.mem_cons.1 hs0 with h1 | h1
        · subst h1
          rcases collectStep_audio_char v st0 s0 st1 hf with ⟨_, _, hcond⟩ | ⟨_, _, _, hbs⟩
          · rw [ha0, hv0] at hcond
            simp at hcond
          · exact hih.1 hbs
        · exact hih.2 ⟨s0, h1, hv0, ha0⟩

/-- Invariant preservation through `List.foldlM` over the `Option` monad. -/
theorem foldlM_preserve {σ τ : Type} (f : σ → τ → Option σ) (P : σ → Prop)
    (hstep : ∀ s t s', f s t = some s' → P s → P s') :
    ∀ (L : List τ) (s0 s : σ), List.foldlM f s0 L = some s → P s0 → P s := by
  intro L
  induction L with
  | nil =>
    intro s0 s h hp
    simp only [List.foldlM_nil, Option.pure_def, Option.some.injEq] at h
    exact h ▸ hp
  | cons t L ih =>
    intro s0 s h hp
    rw [List.foldlM_cons] at h
    cases hf : f s0 t with
    | none =>
      rw [hf] at h
      exact Option.noConfusion h
    | some s1 =>
      rw [hf] at h
      exact ih s1 s h (hstep s0 t s1 hf hp)

/-! ## Counting lemmas -/

theorem countP_or_le {γ : Type} (p q : γ → Bool) (l : List γ) :
    l.countP (fun a => p a || q a) ≤ l.countP p + l.countP q := by
  induction l with
  | nil => simp
  | cons a l ih =>
    simp only [List.countP_cons]
    by_cases hp : p a = true <;> by_cases hq : q a = true <;>
      simp [hp, hq] <;> omega

theorem countP_beq_le_one {γ : Type} [BEq γ] [LawfulBEq γ] (l : List γ)
    (hl : l.Nodup) (k : γ) : l.countP (fun x => x == k) ≤ 1 := by
  induction l with
  | nil => simp
  | cons a l ih =>
    rw [List.countP_cons]
    rcases List.nodup_cons.1 hl with ⟨ha, hl2⟩
    by_cases h : a = k
    · subst h
      have hz : l.countP (fun x => x == a) = 0 := by
        rw [List.countP_eq_zero]
        intro x hx
        simp only [beq_iff_eq]
        intro he
        exact ha (he ▸ hx)
      simp [hz]
    · simp only [beq_iff_eq, h, if_false]
      simpa using ih hl2

/-! ## Collection-phase invariants -/

theorem collect_video_invariant (verbose : Bool) (L : List YStream) (st : CollectSt)
    (h : collectPhase L verbose = some st) :
    (∀ p ∈ st.videoStreams, keyOK p) ∧ (st.videoStreams.map Prod.fst).Nodup := by
  refine foldlM_preserve (collectStep verbose)
    (fun st => (∀ p ∈ st.videoStreams, keyOK p) ∧ (st.videoStreams.map Prod.fst).Nodup)
    ?_ L ⟨[], [], none⟩ st h ⟨by simp, by simp⟩
  intro s1 t s2 hstep hP
  obtain ⟨hwf, hnd⟩ := hP
  rcases collectStep_video_char verbose s1 t s2 hstep with hv | hv | hv
  · rw [hv]
    exact ⟨hwf, hnd⟩
  · obtain ⟨hres, hv | hv⟩ := hv <;> rw [hv] <;>
      refine ⟨?_, keys_dPut_nodup _ _ _ hnd⟩ <;> intro p hp
    · rcases mem_dPut _ _ _ _ hp with h1 | h1
      · subst h1
        exact Or.inr ⟨hres, Or.inl rfl⟩
      · exact hwf p h1
    · rcases mem_dPut _ _ _ _ hp with h1 | h1
      · subst h1
        exact Or.inr ⟨hres, Or.inr rfl⟩
      · exact hwf p h1
  · obtain ⟨hres, hv⟩ := hv
    rw [hv]
    refine ⟨?_, keys_dPut_nodup _ _ _ hnd⟩
    intro p hp
    rcases mem_dPut _ _ _ _ hp with h1 | h1
    · subst h1
      exact Or.inl rfl
    · exact hwf p h1

theorem video_dict_countP (d : List (String × YStream))
    (hwf : ∀ p ∈ d, keyOK p) (hnd : (d.map Prod.fst).Nodup) :
    ((d.map Prod.snd).countP (fun s => s.resolution == "1080p") ≤ 2) ∧
    (∀ r : String, r ≠ "1080p" →
      (d.map Prod.snd).countP (fun s => s.resolution == r) ≤ 1) := by
  constructor
  · rw [List.countP_map]
    have h2 : d.countP ((fun s : YStream => s.resolution == "1080p") ∘ Prod.snd)
        ≤ d.countP (fun p => p.1 == "1080p_hd" || p.1 == "1080p") := by
      apply List.countP_mono_left
      intro p hp hres
      simp only [Function.comp_apply, beq_iff_eq] at hres
      rcases hwf p hp with hk | ⟨_, hk | hk⟩ <;> simp [hk, hres]
    refine le_trans h2 (le_trans (countP_or_le _ _ d) ?_)
    have ha := countP_beq_le_one (d.map Prod.fst) hnd "1080p_hd"
    have hb := countP_beq_le_one (d.map Prod.fst) hnd "1080p"
    rw [List.countP_map] at ha hb
    have haa : d.countP (fun p => p.1 == "1080p_hd")
        = d.countP ((fun x => x == "1080p_hd") ∘ Prod.fst) := rfl
    have hbb : d.countP (fun p => p.1 == "1080p")
        = d.countP ((fun x => x == "1080p") ∘ Prod.fst) := rfl
    rw [haa, hbb]
    omega
  · intro r hr
    rw [List.countP_map]
    have h2 : d.countP ((fun s : YStream => s.resolution == r) ∘ Prod.snd)
        ≤ d.countP (fun p => p.1 == r) := by
      apply List.countP_mono_left
      intro p hp hres
      simp only [Function.comp_apply, beq_iff_eq] at hres
      rcases hwf p hp with hk | ⟨h1080, _⟩
      · simp [hk, hres]
      · exact absurd (by rw [← hres, h1080]) hr
    refine le_trans h2 ?_
    have h3 := countP_beq_le_one (d.map Prod.fst) hnd r
    rw [List.countP_map] at h3
    exact h3

/-! ## Phase-2 lemmas -/

theorem keyedVideo_snd (d : List (String × YStream))
    (kd : List ((Nat × Bool) × YStream)) (h : keyedVideo d = some kd) :
    kd.map Prod.snd = d.map Prod.snd := by
  induction d generalizing kd with
  | nil =>
    simp only [keyedVideo, Option.some.injEq] at h
    subst h
    rfl
  | cons p rest ih =>
    simp only [keyedVideo] at h
    cases h1 : resKey p.1 with
    | none =>
      rw [h1] at h
      cases h
    | some kk =>
      cases h2 : keyedVideo rest with
      | none =>
        rw [h1, h2] at h
        cases h
      | some r =>
        rw [h1, h2] at h
        cases h
        simp [ih r h2]

theorem keyedVideo_mem (d : List (String × YStream))
    (kd : List ((Nat × Bool) × YStream)) (k : String) (v : YStream)
    (kk : Nat × Bool) (h : keyedVideo d = some kd) (hm : (k, v) ∈ d)
    (hk : resKey k = some kk) : (kk, v) ∈ kd := by
  induction d generalizing kd with
  | nil => simp at hm
  | cons p rest ih =>
    simp only [keyedVideo] at h
    cases h1 : resKey p.1 with
    | none =>
      rw [h1] at h
      cases h
    | some kk1 =>
      cases h2 : keyedVideo rest with
      | none =>
        rw [h1, h2] at h
        cases h
      | some r =>
        rw [h1, h2] at h
        cases h
        rcases List.mem_cons.1 hm with h3 | h3
        · obtain ⟨pk, pv⟩ := p
          injection h3 with hkk hvv
          subst hkk
          subst hvv
          rw [hk] at h1
          cases Option.some.inj h1
          exact List.mem_cons_self _ _
        · exact List.mem_cons_of_mem _ (ih r h2 h3)

theorem orderedVideo_countP (d : List (String × YStream)) (vs : List YStream)
    (h : orderedVideo d = some vs) (p : YStream → Bool) :
    vs.countP p = (d.map Prod.snd).countP p := by
  unfold orderedVideo at h
  cases hk : keyedVideo d with
  | none =>
    rw [hk] at h
    exact Option.noConfusion h
  | some kd =>
    rw [hk] at h
    have h' : (List.insertionSort vidGe kd).map (fun q => q.2) = vs :=
      Option.some.inj h
    rw [← h', List.countP_map, (List.perm_insertionSort vidGe kd).countP_eq,
      ← keyedVideo_snd d kd hk, List.countP_map]

theorem organize_destruct (L : List YStream) (v : Bool) (vs : List YStream)
    (opts : List AudioOpt) (h : organize_streams L v = some (vs, opts)) :
    ∃ st ranked, collectPhase L v = some st ∧
      orderedVideo st.videoStreams = some vs ∧
      rankedAudio st.audioStreams = some ranked ∧
      opts = audioOptions v st.bestAudio.isSome ranked := by
  unfold organize_streams at h
  cases h1 : collectPhase L v with
  | none =>
    rw [h1] at h
    exact Option.noConfusion h
  | some st =>
    rw [h1] at h
    replace h : (do
        let vids ← orderedVideo st.videoStreams
        let ranked ← rankedAudio st.audioStreams
        some (vids, audioOptions v st.bestAudio.isSome ranked)) = some (vs, opts) := h
    cases h2 : orderedVideo st.videoStreams with
    | none =>
      rw [h2] at h
      exact Option.noConfusion h
    | some vids =>
      rw [h2] at h
      replace h : (do
          let ranked ← rankedAudio st.audioStreams
          some (vids, audioOptions v st.bestAudio.isSome ranked)) = some (vs, opts) := h
      cases h3 : rankedAudio st.audioStreams with
      | none =>
        rw [h3] at h
        exact Option.noConfusion h
      | some ranked =>
        rw [h3] at h
        have h4 := Option.some.inj h
        cases h4
        exact ⟨st, ranked, rfl, h2, h3, rfl⟩

/-! ## The two 1080p slots of the video dict -/

theorem collectStep_hd (v : Bool) (st : CollectSt) (s : YStream) (st' : CollectSt)
    (h : collectStep v st s = some st') (hs : s.resolution ≠ "1080p_hd") :
    (∀ p, dGet st.videoStreams "1080p_hd" = some p →
       dGet st'.videoStreams "1080p_hd" = some p) ∧
    (dGet st.videoStreams "1080p_hd" = none →
       dGet st'.videoStreams "1080p_hd" =
         (if elig v s && s.resolution == "1080p" then some s else none)) := by
  unfold collectStep at h
  split at h
  · rename_i hv
    split at h
    · rename_i hw
      cases h
      have he : elig v s = false := by simp [elig, hw]
      constructor
      · intro p hp
        exact hp
      · intro h0
        rw [he]
        simpa using h0
    · rename_i hw
      have hw' : (!v && s.subtype == "webm") = false := by
        revert hw
        cases (!v && s.subtype == "webm") <;> simp
      have he : elig v s = true := by simp [elig, hv, hw']
      split at h
      · rename_i h1080
        split at h
        · rename_i heq
          cases h
          constructor
          · intro p hp
            rw [heq] at hp
            exact Option.noConfusion hp
          · intro _
            rw [if_pos (by simp [he, h1080])]
            exact dGet_dPut_self _ _ _
        · rename_i hd0 heq
          split at h
          · cases h
            constructor
            · intro p hp
              rw [dGet_dPut_ne _ _ _ _ (by decide)]
              exact hp
            · intro h0
              rw [h0] at heq
              exact Option.noConfusion heq
          · cases h
            constructor
            · intro p hp
              exact hp
            · intro h0
              rw [h0] at heq
              exact Option.noConfusion heq
      · rename_i h1080
        have hp1080 : (s.resolution == "1080p") = false := by
          revert h1080
          cases hres : (s.resolution == "1080p") <;> simp
        split at h
        · cases h
          constructor
          · intro p hp
            exact hp
          · intro h0
            rw [hp1080, Bool.and_false, if_neg (by simp)]
            exact h0
        · cases h
          constructor
          · intro p hp
            rw [dGet_dPut_ne _ _ _ _ (fun hh => hs hh.symm)]
            exact hp
          · intro h0
            rw [dGet_dPut_ne _ _ _ _ (fun hh => hs hh.symm), hp1080, Bool.and_false,
              if_neg (by simp)]
            exact h0
  · rename_i hv
    have he : elig v s = false := by
      have hv' : s.includesVideo = false := by
        revert hv
        cases s.includesVideo <;> simp
      simp [elig, hv']
    have hvid : st'.videoStreams = st.videoStreams := by
      split at h
      · rcases Option.map_eq_some'.1 h with ⟨b, hb, heq⟩
        rw [← heq]
      · cases h
        rfl
    rw [hvid]
    constructor
    · intro p hp
      exact hp
    · intro h0
      rw [he]
      simpa using h0

theorem collectStep_secondary (v : Bool) (st : CollectSt) (s : YStream) (st' : CollectSt)
    (h : collectStep v st s = some st') (hs : s.resolution ≠ "1080p_hd")
    (hq : ∀ q, dGet st.videoStreams "1080p" = some q →
      ∃ p, dGet st.videoStreams "1080p_hd" = some p ∧ q.filesize < p.filesize) :
    ∀ q, dGet st'.videoStreams "1080p" = some q →
      ∃ p, dGet st'.videoStreams "1080p_hd" = some p ∧ q.filesize < p.filesize := by
  unfold collectStep at h
  split at h
  · split at h
    · cases h
      exact hq
    · split at h
      · split at h
        · rename_i heq
          cases h
          intro q hget
          rw [dGet_dPut_ne _ _ _ _ (by decide)] at hget
          rcases hq q hget with ⟨p, hp, _⟩
          rw [heq] at hp
          exact Option.noConfusion hp
        · rename_i hd0 heq
          split at h
          · rename_i hsize
            cases h
            intro q hget
            rw [dGet_dPut_self _ _ _] at hget
            cases Option.some.inj hget
            refine ⟨hd0, ?_, hsize⟩
            rw [dGet_dPut_ne _ _ _ _ (by decide)]
            exact heq
          · cases h
            exact hq
      · split at h
        · cases h
          exact hq
        · rename_i h1080 _
          have hne1 : s.resolution ≠ "1080p" := by
            intro hh
            rw [hh] at h1080
            exact h1080 (by simp)
          cases h
          intro q hget
          rw [dGet_dPut_ne _ _ _ _ (fun hh => hne1 hh.symm)] at hget
          rcases hq q hget with ⟨p, hp, hsz⟩
          refine ⟨p, ?_, hsz⟩
          rw [dGet_dPut_ne _ _ _ _ (fun hh => hs hh.symm)]
          exact hp
  · have hvid : st'.videoStreams = st.videoStreams := by
      split at h
      · rcases Option.map_eq_some'.1 h with ⟨b, hb, heq⟩
        rw [← heq]
      · cases h
        rfl
    rw [hvid]
    exact hq

/-- Invariant preservation through `List.foldlM`, with a hypothesis on the
traversed elements. -/
theorem foldlM_preserve_mem {σ τ : Type} (f : σ → τ → Option σ) (P : σ → Prop)
    (R : τ → Prop) (hstep : ∀ s t s', R t → f s t = some s' → P s → P s') :
    ∀ (L : List τ) (s0 s : σ), List.foldlM f s0 L = some s →
      (∀ t ∈ L, R t) → P s0 → P s := by
  intro L
  induction L with
  | nil =>
    intro s0 s h hR hp
    simp only [List.foldlM_nil, Option.pure_def, Option.some.injEq] at h
    exact h ▸ hp
  | cons t L ih =>
    intro s0 s h hR hp
    rw [List.foldlM_cons] at h
    cases hf : f s0 t with
    | none =>
      rw [hf] at h
      exact Option.noConfusion h
    | some s1 =>
      rw [hf] at h
      exact ih s1 s h (fun u hu => hR u (List.mem_cons_of_mem _ hu))
        (hstep s0 t s1 (hR t (List.mem_cons_self _ _)) hf hp)

theorem collect_hd_fold (v : Bool) :
    ∀ (L : List YStream) (st0 st : CollectSt),
      List.foldlM (collectStep v) st0 L = some st →
      (∀ s ∈ L, s.resolution ≠ "1080p_hd") →
      ((∀ p, dGet st0.videoStreams "1080p_hd" = some p →
          dGet st.videoStreams "1080p_hd" = some p) ∧
       (dGet st0.videoStreams "1080p_hd" = none →
          dGet st.videoStreams "1080p_hd" =
            L.find? (fun s => elig v s && s.resolution == "1080p"))) := by
  intro L
  induction L with
  | nil =>
    intro st0 st h _
    simp only [List.foldlM_nil, Option.pure_def, Option.some.injEq] at h
    subst h
    exact ⟨fun p hp => hp, fun h0 => by simpa using h0⟩
  | cons s L ih =>
    intro st0 st h hres
    rw [List.foldlM_cons] at h
    cases hf : collectStep v st0 s with
    | none =>
      rw [hf] at h
      exact Option.noConfusion h
    | some st1 =>
      rw [hf] at h
      have hstep := collectStep_hd v st0 s st1 hf (hres s (List.mem_cons_self _ _))
      have hih := ih st1 st h (fun t ht => hres t (List.mem_cons_of_mem _ ht))
      constructor
      · intro p hp
        exact hih.1 p (hstep.1 p hp)
      · intro h0
        rw [List.find?_cons]
        by_cases hpred : (elig v s && s.resolution == "1080p") = true
        · have h1 := hstep.2 h0
          rw [if_pos hpred] at h1
          simp only [hpred]
          exact hih.1 s h1
        · have hpred' : (elig v s && s.resolution == "1080p") = false := by
            revert hpred
            cases (elig v s && s.resolution == "1080p") <;> simp
          have h1 := hstep.2 h0
          rw [if_neg hpred] at h1
          simp only [hpred']
          exact hih.2 h1

theorem collect_secondary_fold (v : Bool) (L : List YStream) (st : CollectSt)
    (h : collectPhase L v = some st)
    (hres : ∀ s ∈ L, s.resolution ≠ "1080p_hd") :
    ∀ q, dGet st.videoStreams "1080p" = some q →
      ∃ p, dGet st.videoStreams "1080p_hd" = some p ∧ q.filesize < p.filesize := by
  refine foldlM_preserve_mem (collectStep v)
    (fun st => ∀ q, dGet st.videoStreams "1080p" = some q →
      ∃ p, dGet st.videoStreams "1080p_hd" = some p ∧ q.filesize < p.filesize)
    (fun s => s.resolution ≠ "1080p_hd") ?_ L ⟨[], [], none⟩ st h hres ?_
  · intro s1 t s2 hR hstep hP
    exact collectStep_secondary v s1 t s2 hstep hR hP
  · intro q hq
    exact Option.noConfusion hq

/-! ## Order of entries in a sorted list -/

theorem sorted_before {l : List ((Nat × Bool) × YStream)}
    (hsort : List.Sorted vidGe l) (a b : (Nat × Bool) × YStream)
    (ha : a ∈ l) (hb : b ∈ l) (hne : a ≠ b) (hnge : ¬ vidGe b a) :
    ∃ i j : Nat, i < j ∧ l[i]? = some a ∧ l[j]? = some b := by
  obtain ⟨i, hi, hia⟩ := List.getElem_of_mem ha
  obtain ⟨j, hj, hjb⟩ := List.getElem_of_mem hb
  have hij : i ≠ j := by
    intro he
    subst he
    exact hne (hia ▸ hjb ▸ rfl)
  rcases Nat.lt_or_ge i j with hlt | hge
  · exact ⟨i, j, hlt, by rw [List.getElem?_eq_getElem hi, hia],
      by rw [List.getElem?_eq_getElem hj, hjb]⟩
  · have hlt2 : j < i := Nat.lt_of_le_of_ne hge (fun he => hij he.symm)
    have := List.pairwise_iff_getElem.1 hsort j i hj hi hlt2
    rw [hia, hjb] at this
    exact absurd this hnge

/-- C1: for every raw descriptor list and either verbosity, the video menu
holds at most two 1080p entries and at most one entry of any other
resolution; the `"1080p_hd"` slot holds exactly the first 1080p descriptor
iterated by the video arm (webm descriptors are not iterated in
non-verbose mode), and any occupant of the plain `"1080p"` slot has a file
size strictly below the primary's; Scenario A produces the menu
`["1080p+", 50MB], ["1080p", 40MB], ["720p", 30MB]` in that order.
(The resolutions-differ-from-`"1080p_hd"` hypothesis rules out descriptor
lists that spoof the internal dict key.) -/
theorem organize_video_dedup_and_scenarioA :
    (∀ (L : List YStream) (verbose : Bool) (vs : List YStream) (opts : List AudioOpt),
      organize_streams L verbose = some (vs, opts) →
      (∀ s ∈ L, s.resolution ≠ "1080p_hd") →
      (vs.countP (fun s => s.resolution == "1080p") ≤ 2) ∧
      (∀ r : String, r ≠ "1080p" → vs.countP (fun s => s.resolution == r) ≤ 1) ∧
      (∃ st, collectPhase L verbose = some st ∧
        dGet st.videoStreams "1080p_hd" =
          L.find? (fun s => elig verbose s && s.resolution == "1080p") ∧
        (∀ q, dGet st.videoStreams "1080p" = some q →
          ∃ p, dGet st.videoStreams "1080p_hd" = some p ∧ q.filesize < p.filesize))) ∧
    (organize_streams [scA1, scA2, scA3] false = some ([scA1, scA2, scA3], []) ∧
      videoMenu [scA1, scA2, scA3] =
        [("1080p+", 50000000), ("1080p", 40000000), ("720p", 30000000)]) := by
  constructor
  · intro L verbose vs opts horg hres
    obtain ⟨st, ranked, hst, hov, hra, hopts⟩ := organize_destruct L verbose vs opts horg
    have hinv := collect_video_invariant verbose L st hst
    have hcount := video_dict_countP st.videoStreams hinv.1 hinv.2
    have hcnt : ∀ p : YStream → Bool,
        vs.countP p = (st.videoStreams.map Prod.snd).countP p :=
      fun p => orderedVideo_countP _ _ hov p
    refine ⟨by rw [hcnt]; exact hcount.1,
      fun r hr => by rw [hcnt]; exact hcount.2 r hr, st, hst, ?_, ?_⟩
    · exact (collect_hd_fold verbose L ⟨[], [], none⟩ st hst hres).2 rfl
    · exact collect_secondary_fold verbose L st hst hres
  · exact ⟨by decide, by decide⟩

/-- C1 witness: Scenario A instantiates the hypotheses. -/
theorem organize_video_dedup_and_scenarioA_witness :
    (organize_streams [scA1, scA2, scA3] false = some ([scA1, scA2, scA3], []) ∧
      (∀ s ∈ [scA1, scA2, scA3], s.resolution ≠ "1080p_hd")) ∧
    (([scA1, scA2, scA3].countP (fun s => s.resolution == "1080p") ≤ 2) ∧
      (∀ r : String, r ≠ "1080p" →
        [scA1, scA2, scA3].countP (fun s => s.resolution == r) ≤ 1) ∧
      (∃ st, collectPhase [scA1, scA2, scA3] false = some st ∧
        dGet st.videoStreams "1080p_hd" =
          [scA1, scA2, scA3].find? (fun s => elig false s && s.resolution == "1080p") ∧
        (∀ q, dGet st.videoStreams "1080p" = some q →
          ∃ p, dGet st.videoStreams "1080p_hd" = some p ∧ q.filesize < p.filesize))) :=
  ⟨⟨by decide, by decide⟩,
    organize_video_dedup_and_scenarioA.1 [scA1, scA2, scA3] false [scA1, scA2, scA3] []
      (by decide) (by decide)⟩

/-- C7 counterexample: with a 1440p descriptor present, the first-seen
1080p descriptor still sorts before the plain secondary, but no menu row
at all carries the `"+"` mark — `print_stream_options` flags only row 1 —
so the first-encountered 1080p descriptor is not presented as the
`"+"`-flagged primary. -/
theorem plus_flag_above_1080_cex :
    organize_streams [scV1440, scA1, scA2] false =
      some ([scV1440, scA1, scA2], []) ∧
    videoMenu [scV1440, scA1, scA2] =
      [("1440p", 45000000), ("1080p", 50000000), ("1080p", 40000000)] ∧
    "1080p+" ∉ (videoMenu [scV1440, scA1, scA2]).map Prod.fst := by
  refine ⟨by decide, by decide, ?_⟩
  decide

/-- C7 (amended): whenever both 1080p slots are filled, the primary (the
first-encountered 1080p descriptor, stored under `"1080p_hd"`) appears
strictly before the plain secondary in the resolution-descending video
menu; but the `"+"` mark is attached exactly to a 1080p entry sitting at
menu position 1 — with any resolution above 1080p present, the primary is
not at position 1 and no entry is flagged. -/
theorem hd_sorts_first_amended :
    (∀ (L : List YStream) (verbose : Bool) (vs : List YStream) (opts : List AudioOpt)
        (st : CollectSt) (p s : YStream),
      organize_streams L verbose = some (vs, opts) →
      collectPhase L verbose = some st →
      dGet st.videoStreams "1080p_hd" = some p →
      dGet st.videoStreams "1080p" = some s →
      ∃ i j : Nat, i < j ∧ vs[i]? = some p ∧ vs[j]? = some s) ∧
    (∀ (i : Nat) (q : YStream),
      videoLabel i q = q.resolution ++ "+" ↔ (q.resolution = "1080p" ∧ i = 1)) := by
  constructor
  · intro L verbose vs opts st p s horg hst hp hs
    obtain ⟨st', ranked, hst', hov, _, _⟩ := organize_destruct L verbose vs opts horg
    rw [hst'] at hst
    cases Option.some.inj hst
    unfold orderedVideo at hov
    cases hk : keyedVideo st.videoStreams with
    | none =>
      rw [hk] at hov
      exact Option.noConfusion hov
    | some kd =>
      rw [hk] at hov
      have hv : (List.insertionSort vidGe kd).map (fun q => q.2) = vs :=
        Option.some.inj hov
      have hmemp : ("1080p_hd", p) ∈ st.videoStreams := mem_of_dGet _ _ _ hp
      have hmems : ("1080p", s) ∈ st.videoStreams := mem_of_dGet _ _ _ hs
      have hkp : resKey "1080p_hd" = some (1080, true) := by decide
      have hks : resKey "1080p" = some (1080, false) := by decide
      have hinp : ((1080, true), p) ∈ kd :=
        keyedVideo_mem _ _ _ _ _ hk hmemp hkp
      have hins : ((1080, false), s) ∈ kd :=
        keyedVideo_mem _ _ _ _ _ hk hmems hks
      have hsort := List.sorted_insertionSort vidGe kd
      have hinp2 : ((1080, true), p) ∈ List.insertionSort vidGe kd :=
        (List.perm_insertionSort vidGe kd).mem_iff.2 hinp
      have hins2 : ((1080, false), s) ∈ List.insertionSort vidGe kd :=
        (List.perm_insertionSort vidGe kd).mem_iff.2 hins
      obtain ⟨i, j, hij, hgi, hgj⟩ := sorted_before hsort _ _ hinp2 hins2
        (by
          intro he
          exact Bool.noConfusion (congrArg (fun x => x.1.2) he))
        (by
          intro hge
          rcases hge with h1 | ⟨_, h2⟩
          · exact Nat.lt_irrefl _ h1
          · exact Bool.noConfusion (h2 rfl))
      refine ⟨i, j, hij, ?_, ?_⟩
      · rw [← hv, List.getElem?_map, hgi]
        rfl
      · rw [← hv, List.getElem?_map, hgj]
        rfl
  · intro i q
    constructor
    · intro h
      unfold videoLabel at h
      split at h
      · rename_i hc
        rw [Bool.and_eq_true, beq_iff_eq, beq_iff_eq] at hc
        exact hc
      · exfalso
        have hlen := congrArg String.length h
        rw [String.length_append] at hlen
        have hone : ("+" : String).length = 1 := by decide
        omega
    · rintro ⟨h1, h2⟩
      subst h2
      unfold videoLabel
      rw [if_pos (by simp [h1])]

/-- C7 amended witness: the 1440p list instantiates the hypotheses. -/
theorem hd_sorts_first_amended_witness :
    (organize_streams [scV1440, scA1, scA2] false =
        some ([scV1440, scA1, scA2], []) ∧
      collectPhase [scV1440, scA1, scA2] false =
        some ⟨[("1440p", scV1440), ("1080p_hd", scA1), ("1080p", scA2)], [], none⟩ ∧
      dGet (⟨[("1440p", scV1440), ("1080p_hd", scA1), ("1080p", scA2)], [],
        none⟩ : CollectSt).videoStreams "1080p_hd" = some scA1 ∧
      dGet (⟨[("1440p", scV1440), ("1080p_hd", scA1), ("1080p", scA2)], [],
        none⟩ : CollectSt).videoStreams "1080p" = some scA2) ∧
    (∃ i j : Nat, i < j ∧ ([scV1440, scA1, scA2] : List YStream)[i]? = some scA1 ∧
      ([scV1440, scA1, scA2] : List YStream)[j]? = some scA2) :=
  ⟨⟨by decide, by decide, by decide, by decide⟩,
    hd_sorts_first_amended.1 [scV1440, scA1, scA2] false [scV1440, scA1, scA2] []
      ⟨[("1440p", scV1440), ("1080p_hd", scA1), ("1080p", scA2)], [], none⟩ scA1 scA2
      (by decide) (by decide) (by decide) (by decide)⟩

/-! ## Audio bucket lemmas -/

theorem bucketStep_char (d : List (Nat × YStream)) (a : YStream)
    (d' : List (Nat × YStream)) (h : bucketStep d a = some d') :
    ∃ b, audioBitrate a = some b ∧ (d' = d ∨ d' = dPut d b a) := by
  unfold bucketStep at h
  split at h
  · exact Option.noConfusion h
  · rename_i b hb
    refine ⟨b, hb, ?_⟩
    split at h
    · exact Or.inr (Option.some.inj h).symm
    · rename_i cur hg
      by_cases hsz : a.filesize < cur.filesize
      · rw [if_pos hsz] at h
        exact Or.inr (Option.some.inj h).symm
      · rw [if_neg hsz] at h
        exact Or.inl (Option.some.inj h).symm

theorem bucketStep_min (d0 : List (Nat × YStream)) (a : YStream)
    (d1 : List (Nat × YStream)) (h : bucketStep d0 a = some d1) :
    (∀ b' v0, dGet d0 b' = some v0 →
       ∃ v1, dGet d1 b' = some v1 ∧ v1.filesize ≤ v0.filesize) ∧
    (∀ b, audioBitrate a = some b →
       ∃ w, dGet d1 b = some w ∧ w.filesize ≤ a.filesize) := by
  unfold bucketStep at h
  split at h
  · exact Option.noConfusion h
  · rename_i b hb
    split at h
    · rename_i hg
      cases Option.some.inj h
      constructor
      · intro b' v0 hv0
        by_cases hbb : b' = b
        · subst hbb
          rw [hg] at hv0
          exact Option.noConfusion hv0
        · rw [dGet_dPut_ne _ _ _ _ hbb]
          exact ⟨v0, hv0, Nat.le_refl _⟩
      · intro b2 hb2
        rw [hb] at hb2
        cases Option.some.inj hb2
        exact ⟨a, dGet_dPut_self _ _ _, Nat.le_refl _⟩
    · rename_i cur hg
      by_cases hsz : a.filesize < cur.filesize
      · rw [if_pos hsz] at h
        cases Option.some.inj h
        constructor
        · intro b' v0 hv0
          by_cases hbb : b' = b
          · subst hbb
            rw [hg] at hv0
            cases Option.some.inj hv0
            exact ⟨a, dGet_dPut_self _ _ _, Nat.le_of_lt hsz⟩
          · rw [dGet_dPut_ne _ _ _ _ hbb]
            exact ⟨v0, hv0, Nat.le_refl _⟩
        · intro b2 hb2
          rw [hb] at hb2
          cases Option.some.inj hb2
          exact ⟨a, dGet_dPut_self _ _ _, Nat.le_refl _⟩
      · rw [if_neg hsz] at h
        cases Option.some.inj h
        constructor
        · intro b' v0 hv0
          exact ⟨v0, hv0, Nat.le_refl _⟩
        · intro b2 hb2
          rw [hb] at hb2
          cases Option.some.inj hb2
          exact ⟨cur, hg, Nat.le_of_not_lt hsz⟩

theorem buckets_parse :
    ∀ (audio : List YStream) (d0 d : List (Nat × YStream)),
      List.foldlM bucketStep d0 audio = some d →
      ∀ t ∈ audio, ∃ n, audioBitrate t = some n := by
  intro audio
  induction audio with
  | nil =>
    intro d0 d h t ht
    simp at ht
  | cons a rest ih =>
    intro d0 d h t ht
    rw [List.foldlM_cons] at h
    cases hf : bucketStep d0 a with
    | none =>
      rw [hf] at h
      exact Option.noConfusion h
    | some d1 =>
      rw [hf] at h
      rcases List.mem_cons.1 ht with h1 | h1
      · subst h1
        rcases bucketStep_char d0 t d1 hf with ⟨b, hb, _⟩
        exact ⟨b, hb⟩
      · exact ih d1 d h t h1

theorem buckets_key_inv (audio : List YStream) (d : List (Nat × YStream))
    (h : List.foldlM bucketStep [] audio = some d) :
    ∀ p ∈ d, audioBitrate p.2 = some p.1 := by
  refine foldlM_preserve bucketStep
    (fun d => ∀ p ∈ d, audioBitrate p.2 = some p.1) ?_ audio [] d h (by simp)
  intro d1 a d2 hf hP
  rcases bucketStep_char d1 a d2 hf with ⟨b, hb, hcase | hcase⟩
  · rw [hcase]
    exact hP
  · rw [hcase]
    intro p hp
    rcases mem_dPut _ _ _ _ hp with h1 | h1
    · subst h1
      exact hb
    · exact hP p h1

theorem buckets_nodup (audio : List YStream) (d : List (Nat × YStream))
    (h : List.foldlM bucketStep [] audio = some d) :
    (d.map Prod.fst).Nodup := by
  refine foldlM_preserve bucketStep
    (fun d => (d.map Prod.fst).Nodup) ?_ audio [] d h (by simp)
  intro d1 a d2 hf hP
  rcases bucketStep_char d1 a d2 hf with ⟨b, _, hcase | hcase⟩
  · rw [hcase]
    exact hP
  · rw [hcase]
    exact keys_dPut_nodup _ _ _ hP

theorem buckets_provenance :
    ∀ (audio : List YStream) (d0 d : List (Nat × YStream)),
      List.foldlM bucketStep d0 audio = some d →
      ∀ p ∈ d, p ∈ d0 ∨ p.2 ∈ audio := by
  intro audio
  induction audio with
  | nil =>
    intro d0 d h p hp
    simp only [List.foldlM_nil, Option.pure_def, Option.some.injEq] at h
    subst h
    exact Or.inl hp
  | cons a rest ih =>
    intro d0 d h p hp
    rw [List.foldlM_cons] at h
    cases hf : bucketStep d0 a with
    | none =>
      rw [hf] at h
      exact Option.noConfusion h
    | some d1 =>
      rw [hf] at h
      rcases ih d1 d h p hp with h1 | h1
      · rcases bucketStep_char d0 a d1 hf with ⟨b, _, hcase | hcase⟩
        · rw [hcase] at h1
          exact Or.inl h1
        · rw [hcase] at h1
          rcases mem_dPut _ _ _ _ h1 with h2 | h2
          · subst h2
            exact Or.inr (List.mem_cons_self _ _)
          · exact Or.inl h2
      · exact Or.inr (List.mem_cons_of_mem _ h1)

theorem buckets_min :
    ∀ (audio : List YStream) (d0 d : List (Nat × YStream)),
      List.foldlM bucketStep d0 audio = some d →
      ((∀ b v0, dGet d0 b = some v0 →
          ∃ v, dGet d b = some v ∧ v.filesize ≤ v0.filesize) ∧
       (∀ t ∈ audio, ∀ bt, audioBitrate t = some bt →
          ∃ v, dGet d bt = some v ∧ v.filesize ≤ t.filesize)) := by
  intro audio
  induction audio with
  | nil =>
    intro d0 d h
    simp only [List.foldlM_nil, Option.pure_def, Option.some.injEq] at h
    subst h
    exact ⟨fun b v0 hv => ⟨v0, hv, Nat.le_refl _⟩, by simp⟩
  | cons a rest ih =>
    intro d0 d h
    rw [List.foldlM_cons] at h
    cases hf : bucketStep d0 a with
    | none =>
      rw [hf] at h
      exact Option.noConfusion h
    | some d1 =>
      rw [hf] at h
      have hstep := bucketStep_min d0 a d1 hf
      have hih := ih d1 d h
      constructor
      · intro b' v0 hv0
        rcases hstep.1 b' v0 hv0 with ⟨v1, hv1, hle1⟩
        rcases hih.1 b' v1 hv1 with ⟨v, hv, hle2⟩
        exact ⟨v, hv, Nat.le_trans hle2 hle1⟩
      · intro t ht bt hbt
        rcases List.mem_cons.1 ht with h1 | h1
        · subst h1
          rcases hstep.2 bt hbt with ⟨w, hw, hle1⟩
          rcases hih.1 bt w hw with ⟨v, hv, hle2⟩
          exact ⟨v, hv, Nat.le_trans hle2 hle1⟩
        · exact hih.2 t h1 bt hbt

/-! ## The ranked audio list -/

theorem rankedAudio_spec (audio : List YStream) (r : List YStream)
    (h : rankedAudio audio = some r) :
    (∀ s ∈ r, s ∈ audio) ∧
    (∀ s ∈ r, ∀ t ∈ audio, audioBitrate t = audioBitrate s →
      s.filesize ≤ t.filesize) ∧
    (r.map audioBitrate).Nodup ∧
    (∀ t ∈ audio, audioBitrate t ∈ r.map audioBitrate) ∧
    List.Pairwise (fun a b => ∀ x y, audioBitrate a = some x →
      audioBitrate b = some y → y ≤ x) r := by
  unfold rankedAudio at h
  cases hb : List.foldlM bucketStep [] audio with
  | none =>
    rw [hb] at h
    exact Option.noConfusion h
  | some buckets =>
    rw [hb] at h
    have hr : (List.insertionSort bucketGe buckets).map (fun p => p.2) = r :=
      Option.some.inj h
    have hperm : List.Perm (List.insertionSort bucketGe buckets) buckets :=
      List.perm_insertionSort _ _
    have hkey := buckets_key_inv audio buckets hb
    have hnd := buckets_nodup audio buckets hb
    have hprov := buckets_provenance audio [] buckets hb
    have hmin := (buckets_min audio [] buckets hb).2
    have hmem : ∀ s ∈ r, ∃ bk, (bk, s) ∈ buckets := by
      intro s hs
      rw [← hr] at hs
      rcases List.mem_map.1 hs with ⟨p, hp, he⟩
      obtain ⟨pk, pv⟩ := p
      cases he
      exact ⟨pk, hperm.mem_iff.1 hp⟩
    refine ⟨?_, ?_, ?_, ?_, ?_⟩
    · intro s hs
      rcases hmem s hs with ⟨bk, hp⟩
      rcases hprov (bk, s) hp with h1 | h1
      · simp at h1
      · exact h1
    · intro s hs t ht hbt
      rcases hmem s hs with ⟨bk, hp⟩
      have hbs : audioBitrate s = some bk := hkey (bk, s) hp
      have hget : dGet buckets bk = some s := dGet_of_mem _ _ _ hnd hp
      rw [hbs] at hbt
      rcases hmin t ht bk hbt with ⟨v, hv, hle⟩
      rw [hget] at hv
      cases Option.some.inj hv
      exact hle
    · have h1 : r.map audioBitrate =
          (List.insertionSort bucketGe buckets).map (fun p => audioBitrate p.2) := by
        rw [← hr, List.map_map]
        rfl
      have h2 : (List.insertionSort bucketGe buckets).map (fun p => audioBitrate p.2)
          = (List.insertionSort bucketGe buckets).map (fun p => some p.1) := by
        apply List.map_congr_left
        intro p hp
        exact hkey p (hperm.mem_iff.1 hp)
      have h3 : (List.insertionSort bucketGe buckets).map
            (fun p : Nat × YStream => some p.1)
          = ((List.insertionSort bucketGe buckets).map Prod.fst).map some := by
        rw [List.map_map]
        rfl
      rw [h1, h2, h3]
      apply List.Nodup.map (Option.some_injective _)
      have hpm : List.Perm ((List.insertionSort bucketGe buckets).map Prod.fst)
          (buckets.map Prod.fst) := hperm.map _
      exact hpm.nodup_iff.2 hnd
    · intro t ht
      rcases buckets_parse audio [] buckets hb t ht with ⟨bt, hbt⟩
      rcases hmin t ht bt hbt with ⟨v, hv, _⟩
      have hvmem : (bt, v) ∈ buckets := mem_of_dGet _ _ _ hv
      have hvr : v ∈ r := by
        rw [← hr]
        exact List.mem_map.2 ⟨(bt, v), hperm.mem_iff.2 hvmem, rfl⟩
      have hkv : audioBitrate v = some bt := hkey (bt, v) hvmem
      rw [hbt, ← hkv]
      exact List.mem_map_of_mem _ hvr
    · have hsorted := List.sorted_insertionSort bucketGe buckets
      rw [← hr, List.pairwise_map]
      refine List.Pairwise.imp_of_mem ?_ hsorted
      intro p q hp hq hge x y hx hy
      have h1 : audioBitrate p.2 = some p.1 := hkey p (hperm.mem_iff.1 hp)
      have h2 : audioBitrate q.2 = some q.1 := hkey q (hperm.mem_iff.1 hq)
      rw [h1] at hx
      rw [h2] at hy
      cases Option.some.inj hx
      cases Option.some.inj hy
      exact hge

/-- C6 counterexample: a present but digit-free bitrate string (for
example `"kbps"`) is not bucketed as 128 — digit extraction raises (the
Python `int('')` `ValueError`) and stream organization produces no output
at all, so "absent/unparseable defaults to 128" fails for the unparseable
case. -/
theorem unparseable_bitrate_cex :
    organize_streams [badAbrAudio] false = none ∧
    rankedAudio [badAbrAudio] = none := by
  exact ⟨by decide, by decide⟩

/-- C6 (amended): whenever audio ranking succeeds, the ranked output draws
every entry from the input, each entry is a smallest file within its
bitrate bucket, bucket bitrates are pairwise distinct, every bitrate
present in the input has its bucket represented, and buckets are ordered
by bitrate descending; an absent (`None`) bitrate is bucketed as 128.
A truthy but digit-free bitrate is not defaulted — ranking aborts (see the
counterexample). -/
theorem audio_bucket_dedup_amended :
    (∀ (audio r : List YStream), rankedAudio audio = some r →
      (∀ s ∈ r, s ∈ audio) ∧
      (∀ s ∈ r, ∀ t ∈ audio, audioBitrate t = audioBitrate s →
        s.filesize ≤ t.filesize) ∧
      (r.map audioBitrate).Nodup ∧
      (∀ t ∈ audio, audioBitrate t ∈ r.map audioBitrate) ∧
      List.Pairwise (fun a b => ∀ x y, audioBitrate a = some x →
        audioBitrate b = some y → y ≤ x) r) ∧
    (∀ s : YStream, s.abr = none → audioBitrate s = some 128) := by
  constructor
  · intro audio r h
    exact rankedAudio_spec audio r h
  · intro s h
    simp only [audioBitrate, abrStr, h]
    decide

/-- C6 witness: Scenario B's audio list ranks to `[scB2, scB1]`. -/
theorem audio_bucket_dedup_amended_witness :
    (rankedAudio [scB1, scB2, scB3] = some [scB2, scB1] ∧
      ((∀ s ∈ [scB2, scB1], s ∈ [scB1, scB2, scB3]) ∧
       (∀ s ∈ [scB2, scB1], ∀ t ∈ [scB1, scB2, scB3],
          audioBitrate t = audioBitrate s → s.filesize ≤ t.filesize) ∧
       (([scB2, scB1].map audioBitrate).Nodup) ∧
       (∀ t ∈ [scB1, scB2, scB3], audioBitrate t ∈ [scB2, scB1].map audioBitrate) ∧
       List.Pairwise (fun a b => ∀ x y, audioBitrate a = some x →
         audioBitrate b = some y → y ≤ x) [scB2, scB1])) ∧
    (noAbrAudio.abr = none ∧ audioBitrate noAbrAudio = some 128) :=
  ⟨⟨by decide, audio_bucket_dedup_amended.1 [scB1, scB2, scB3] [scB2, scB1] (by decide)⟩,
   ⟨rfl, audio_bucket_dedup_amended.2 noAbrAudio rfl⟩⟩

/-- C4: with verbose false and at least one audio-only descriptor, the
returned audio option list is exactly the two synthesized options — mp3
then aac — built from the head of the ranked (highest-bitrate-first)
audio list, both carrying that retained descriptor's bitrate label (the
descriptor's own abr whenever it is present) and its file size;
Scenario B yields mp3 and aac, both at 160kbps / 4MB. -/
theorem audio_take_two_and_scenarioB :
    (∀ (L : List YStream) (vs : List YStream) (opts : List AudioOpt)
        (st : CollectSt) (r : List YStream),
      organize_streams L false = some (vs, opts) →
      collectPhase L false = some st →
      rankedAudio st.audioStreams = some r →
      (∃ s ∈ L, s.includesVideo = false ∧ s.includesAudio = true) →
      ∃ d0 rest, r = d0 :: rest ∧
        opts = [AudioOpt.virt ⟨"mp3", virtLabel d0, d0.filesize, "mp3", d0⟩,
                AudioOpt.virt ⟨"aac", virtLabel d0, d0.filesize, "aac", d0⟩] ∧
        (∀ lbl, d0.abr = some lbl → lbl ≠ "" → virtLabel d0 = lbl)) ∧
    (organize_streams [scB1, scB2, scB3] false =
      some ([], [AudioOpt.virt ⟨"mp3", "160kbps", 4000000, "mp3", scB2⟩,
                 AudioOpt.virt ⟨"aac", "160kbps", 4000000, "aac", scB2⟩])) := by
  constructor
  · intro L vs opts st r horg hst hra hex
    obtain ⟨st', ranked, hst', hov, hra', hopts⟩ := organize_destruct L false vs opts horg
    rw [hst'] at hst
    cases Option.some.inj hst
    rw [hra'] at hra
    cases Option.some.inj hra
    obtain ⟨s0, hs0, hv0, ha0⟩ := hex
    have hbest := (collect_best_fold false L ⟨[], [], none⟩ st hst').2
      ⟨s0, hs0, hv0, ha0⟩
    have haud := collect_audio_fold false L ⟨[], [], none⟩ st hst'
    have hs0aud : s0 ∈ st.audioStreams := by
      rw [haud]
      refine List.mem_append_right _ (List.mem_filter.2 ⟨hs0, ?_⟩)
      simp [ha0, hv0]
    have hspec := rankedAudio_spec st.audioStreams r hra'
    have hne : r ≠ [] := by
      intro he
      have hpresent := hspec.2.2.2.1 s0 hs0aud
      rw [he] at hpresent
      simp at hpresent
    cases hranked : r with
    | nil => exact absurd hranked hne
    | cons d0 rest =>
      refine ⟨d0, rest, rfl, ?_, ?_⟩
      · rw [hopts, hbest, hranked]
        simp [audioOptions, mkVirtuals]
      · intro lbl hl hne2
        simp [virtLabel, hl, hne2]
  · decide

/-- C4 witness: Scenario B instantiates the hypotheses. -/
theorem audio_take_two_and_scenarioB_witness :
    (organize_streams [scB1, scB2, scB3] false =
        some ([], [AudioOpt.virt ⟨"mp3", "160kbps", 4000000, "mp3", scB2⟩,
                   AudioOpt.virt ⟨"aac", "160kbps", 4000000, "aac", scB2⟩]) ∧
      collectPhase [scB1, scB2, scB3] false =
        some ⟨[], [scB1, scB2, scB3], some scB2⟩ ∧
      rankedAudio [scB1, scB2, scB3] = some [scB2, scB1] ∧
      (∃ s ∈ [scB1, scB2, scB3], s.includesVideo = false ∧ s.includesAudio = true)) ∧
    (∃ d0 rest, ([scB2, scB1] : List YStream) = d0 :: rest ∧
      ([AudioOpt.virt ⟨"mp3", "160kbps", 4000000, "mp3", scB2⟩,
        AudioOpt.virt ⟨"aac", "160kbps", 4000000, "aac", scB2⟩] : List AudioOpt) =
        [AudioOpt.virt ⟨"mp3", virtLabel d0, d0.filesize, "mp3", d0⟩,
         AudioOpt.virt ⟨"aac", virtLabel d0, d0.filesize, "aac", d0⟩] ∧
      (∀ lbl, d0.abr = some lbl → lbl ≠ "" → virtLabel d0 = lbl)) :=
  ⟨⟨by decide, by decide, by decide, by decide⟩,
    audio_take_two_and_scenarioB.1 [scB1, scB2, scB3] []
      [AudioOpt.virt ⟨"mp3", "160kbps", 4000000, "mp3", scB2⟩,
       AudioOpt.virt ⟨"aac", "160kbps", 4000000, "aac", scB2⟩]
      ⟨[], [scB1, scB2, scB3], some scB2⟩ [scB2, scB1]
      (by decide) (by decide) (by decide) (by decide)⟩
